import Mathlib

/-!
Verification of the `find-cargo-toml` crate (`src/lib.rs`).

The crate walks up the directory tree from a starting path and yields every
directory that contains a manifest file (default `Cargo.toml`).

Shallow embedding choices:
* A filesystem path is a list of parsed components (`RootDir`, `CurDir`,
  `ParentDir`, `Normal s`), mirroring `std::path::Component` on Unix.
* The filesystem is an abstract predicate `fs : Path → Bool` giving the
  result of `Path::is_file` on each (lexical) path.
* `std::env::current_dir()` is modelled as an `Option Path` parameter
  (`none` = the call failed).
* Rust's `Path::components()` drops `.` components except a leading one;
  `Path::parent` drops the last component and is `None` on a bare root or
  the empty path; `Path::join` replaces the receiver when the argument is
  absolute. These are embedded below as `normalize_path`, `parent`, `join`.
* The iterator loop of `FindIter::next` terminates because `parent`
  strictly shrinks the component list; it is embedded with an exact fuel
  (`pmeasure`) so that all definitions compute by kernel reduction, and
  fuel-irrelevance is proved (`nextFuel_congr`, `toListFuel_congr`).
-/

set_option autoImplicit false

namespace FindCargoToml

/-- One parsed path component, as in `std::path::Component` (Unix: no prefix). -/
inductive Component where
  | rootDir : Component
  | curDir : Component
  | parentDir : Component
  | normal : String → Component
deriving DecidableEq, Repr

/-- A path is its list of parsed components. -/
abbrev Path := List Component

/-- `Path::is_absolute` on Unix: the path has a root. -/
def isAbsolute (p : Path) : Bool :=
  match p with
  | Component.rootDir :: _ => true
  | _ => false

/-- `Path::join`: if the argument is absolute it replaces the receiver. -/
def join (p q : Path) : Path :=
  if isAbsolute q then q else p ++ q

/-- `Path::parent`: the path minus its final component; `none` when the path
is empty or terminates in the root. -/
def parent (p : Path) : Option Path :=
  match p.getLast? with
  | none => none
  | some Component.rootDir => none
  | some _ => some p.dropLast

/-- `fn normalize_path(path: &Path) -> PathBuf { path.components().collect() }`:
Rust's component iterator drops `.` components, except one at the very start
of the path. (It does NOT touch `..` components.) -/
def normalize_path (p : Path) : Path :=
  match p with
  | Component.curDir :: rest => Component.curDir :: rest.filter (fun c => c != Component.curDir)
  | _ => p.filter (fun c => c != Component.curDir)

/-- `struct FindIter { current: Option<PathBuf>, file_name: String }`. -/
structure FindIter where
  current : Option Path
  file_name : String
deriving DecidableEq, Repr

/-- Fuel bound for the upward walk: a chain of `parent` steps starting from
`some d` has at most `d.length + 1` elements. -/
def pmeasure : Option Path → Nat
  | none => 0
  | some d => d.length + 1

/-- The loop body of `FindIter::next`, with explicit fuel: starting from
`current`, walk upward until `dir.join(file_name)` is a file; return the
found candidate together with the next value of `current`, or `none` when
the walk exhausts the ancestors. -/
def nextFuel (fs : Path → Bool) (file_name : String) : Nat → Option Path → Option (Path × Option Path)
  | _, none => none
  | 0, some _ => none
  | fuel + 1, some dir =>
      let candidate := dir ++ [Component.normal file_name]
      if fs candidate then some (candidate, parent dir)
      else nextFuel fs file_name fuel (parent dir)

/-- `FindIter::next` (`impl Iterator for FindIter`): returns the yielded item
and the iterator's state afterwards. -/
def FindIter.next (fs : Path → Bool) (it : FindIter) : Option Path × FindIter :=
  match nextFuel fs it.file_name (pmeasure it.current) it.current with
  | none => (none, { it with current := none })
  | some (p, c) => (some p, { it with current := c })

/-- Collecting the iterator, with explicit fuel. -/
def toListFuel (fs : Path → Bool) : Nat → FindIter → List Path
  | 0, _ => []
  | fuel + 1, it =>
      match it.next fs with
      | (none, _) => []
      | (some p, it') => p :: toListFuel fs fuel it'

/-- The full sequence of paths the iterator yields (`collect::<Vec<_>>()`). -/
def FindIter.toList (fs : Path → Bool) (it : FindIter) : List Path :=
  toListFuel fs (pmeasure it.current) it

/-- The base actually used by `find`:
`base.map(to_path_buf).unwrap_or_else(|| current_dir().unwrap_or(PathBuf::from(".")))`. -/
def effectiveBase (cwd : Option Path) (base : Option Path) : Path :=
  base.getD (cwd.getD [Component.curDir])

/-- The start path of `find`:
`if input.is_absolute() { input } else { base.join(input) }`. -/
def startOf (cwd : Option Path) (input : Path) (base : Option Path) : Path :=
  if isAbsolute input then input else join (effectiveBase cwd base) input

/-- The starting directory of `find`: the normalized start path, replaced by
its parent when it is an existing regular file
(`if start_normalized.is_file() { parent().unwrap_or(start_normalized) }`). -/
def startDirOf (fs : Path → Bool) (cwd : Option Path) (input : Path) (base : Option Path) : Path :=
  let start_normalized := normalize_path (startOf cwd input base)
  if fs start_normalized then (parent start_normalized).getD start_normalized
  else start_normalized

/-- `pub fn find<P, Q>(input, base, file_name) -> FindIter`, with the
filesystem `fs` and the (possibly failed) current directory `cwd` explicit. -/
def find (fs : Path → Bool) (cwd : Option Path) (input : Path) (base : Option Path)
    (file_name : Option String) : FindIter :=
  let file_name := file_name.getD "Cargo.toml"
  let base : Path := effectiveBase cwd base
  let start : Path := if isAbsolute input then input else join base input
  let start_normalized := normalize_path start
  let start_dir :=
    if fs start_normalized then (parent start_normalized).getD start_normalized
    else start_normalized
  { current := some start_dir, file_name := file_name }

/-- `pub fn find_from_current_dir(input, file_name) -> FindIter`. -/
def find_from_current_dir (fs : Path → Bool) (cwd : Option Path) (input : Path)
    (file_name : Option String) : FindIter :=
  find fs cwd input none file_name

/-- The ancestor chain visited by the walk: `d`, `parent d`, …, ending just
before `parent` becomes `none` (with explicit fuel). -/
def chainFuel : Nat → Option Path → List Path
  | _, none => []
  | 0, some _ => []
  | fuel + 1, some d => d :: chainFuel fuel (parent d)

/-- The ancestor chain of an optional directory. -/
def chain (o : Option Path) : List Path :=
  chainFuel (pmeasure o) o

/-- The sequence of matches as a pure function of the ancestor chain: the
candidates `dir/file_name` over the chain, filtered by existence. -/
def emissions (fs : Path → Bool) (file_name : String) (o : Option Path) : List Path :=
  ((chain o).map (fun d => d ++ [Component.normal file_name])).filter fs

/-- Demonstration filesystem: exactly the lexical paths that report
`is_file() == true` when `/r/Cargo.toml` is a regular file and `/r/s` is a
subdirectory of `/r` (the OS resolves the `..` physically). -/
def fsDemo : Path → Bool := fun p =>
  p == [Component.rootDir, Component.normal "r", Component.normal "s",
        Component.parentDir, Component.normal "Cargo.toml"]
  || p == [Component.rootDir, Component.normal "r", Component.normal "Cargo.toml"]

/-! ### Basic lemmas about `parent` and the fuel bound -/

theorem parent_eq_some {d d₁ : Path} (h : parent d = some d₁) :
    d₁ = d.dropLast ∧ d ≠ [] := by
  unfold parent at h
  cases hg : d.getLast? with
  | none => rw [hg] at h; exact absurd h (by simp)
  | some c =>
      rw [hg] at h
      have hne : d ≠ [] := by
        intro he; rw [he] at hg; simp at hg
      cases c with
      | rootDir => exact absurd h (by simp)
      | curDir => exact ⟨by simpa using h.symm, hne⟩
      | parentDir => exact ⟨by simpa using h.symm, hne⟩
      | normal s => exact ⟨by simpa using h.symm, hne⟩

theorem parent_length_lt {d d₁ : Path} (h : parent d = some d₁) :
    d₁.length < d.length := by
  obtain ⟨h1, h2⟩ := parent_eq_some h
  subst h1
  have : 0 < d.length := List.length_pos.mpr h2
  simp [List.length_dropLast]
  omega

theorem pmeasure_parent_le (d : Path) : pmeasure (parent d) ≤ d.length := by
  cases hp : parent d with
  | none => simp [pmeasure]
  | some d₁ => simpa [pmeasure] using parent_length_lt hp

theorem pmeasure_eq_zero {o : Option Path} (h : pmeasure o = 0) : o = none := by
  cases o with
  | none => rfl
  | some d => simp [pmeasure] at h

/-! ### Fuel irrelevance and unfolding equations -/

theorem chainFuel_none (fuel : Nat) : chainFuel fuel none = [] := by
  cases fuel <;> rfl

theorem chainFuel_congr :
    ∀ (fuel₁ fuel₂ : Nat) (o : Option Path), pmeasure o ≤ fuel₁ → pmeasure o ≤ fuel₂ →
      chainFuel fuel₁ o = chainFuel fuel₂ o := by
  intro fuel₁
  induction fuel₁ with
  | zero =>
      intro fuel₂ o h1 _
      rw [pmeasure_eq_zero (Nat.le_zero.mp h1), chainFuel_none, chainFuel_none]
  | succ f ih =>
      intro fuel₂ o h1 h2
      cases o with
      | none => rw [chainFuel_none, chainFuel_none]
      | some d =>
          cases fuel₂ with
          | zero => simp [pmeasure] at h2
          | succ f₂ =>
              have hd1 : d.length ≤ f := by simpa [pmeasure] using h1
              have hd2 : d.length ≤ f₂ := by simpa [pmeasure] using h2
              have hp := pmeasure_parent_le d
              show d :: chainFuel f (parent d) = d :: chainFuel f₂ (parent d)
              rw [ih f₂ (parent d) (le_trans hp hd1) (le_trans hp hd2)]

theorem chain_none : chain none = [] := rfl

theorem chain_some (d : Path) : chain (some d) = d :: chain (parent d) := by
  show chainFuel (d.length + 1) (some d) = d :: chain (parent d)
  show d :: chainFuel d.length (parent d) = d :: chain (parent d)
  rw [chainFuel_congr d.length (pmeasure (parent d)) (parent d)
    (pmeasure_parent_le d) le_rfl]
  rfl

theorem nextFuel_none (fs : Path → Bool) (fn : String) (fuel : Nat) :
    nextFuel fs fn fuel none = none := by
  cases fuel <;> rfl

theorem nextFuel_congr (fs : Path → Bool) (fn : String) :
    ∀ (fuel₁ fuel₂ : Nat) (o : Option Path), pmeasure o ≤ fuel₁ → pmeasure o ≤ fuel₂ →
      nextFuel fs fn fuel₁ o = nextFuel fs fn fuel₂ o := by
  intro fuel₁
  induction fuel₁ with
  | zero =>
      intro fuel₂ o h1 _
      rw [pmeasure_eq_zero (Nat.le_zero.mp h1), nextFuel_none, nextFuel_none]
  | succ f ih =>
      intro fuel₂ o h1 h2
      cases o with
      | none => rw [nextFuel_none, nextFuel_none]
      | some d =>
          cases fuel₂ with
          | zero => simp [pmeasure] at h2
          | succ f₂ =>
              have hd1 : d.length ≤ f := by simpa [pmeasure] using h1
              have hd2 : d.length ≤ f₂ := by simpa [pmeasure] using h2
              have hp := pmeasure_parent_le d
              show (if fs (d ++ [Component.normal fn]) then some (d ++ [Component.normal fn], parent d)
                    else nextFuel fs fn f (parent d)) =
                   (if fs (d ++ [Component.normal fn]) then some (d ++ [Component.normal fn], parent d)
                    else nextFuel fs fn f₂ (parent d))
              rw [ih f₂ (parent d) (le_trans hp hd1) (le_trans hp hd2)]

theorem emissions_none (fs : Path → Bool) (fn : String) : emissions fs fn none = [] := rfl

theorem nextFuel_emissions (fs : Path → Bool) (fn : String) :
    ∀ (fuel : Nat) (o : Option Path), pmeasure o ≤ fuel →
      (match nextFuel fs fn fuel o with
       | none => []
       | some (p, c) => p :: emissions fs fn c) = emissions fs fn o := by
  intro fuel
  induction fuel with
  | zero =>
      intro o h
      rw [pmeasure_eq_zero (Nat.le_zero.mp h), nextFuel_none]
      rfl
  | succ f ih =>
      intro o h
      cases o with
      | none =>
          rw [nextFuel_none]
          rfl
      | some d =>
          have hd : d.length ≤ f := by simpa [pmeasure] using h
          show (match (if fs (d ++ [Component.normal fn]) then some (d ++ [Component.normal fn], parent d)
                       else nextFuel fs fn f (parent d)) with
                | none => []
                | some (p, c) => p :: emissions fs fn c) = emissions fs fn (some d)
          by_cases hc : fs (d ++ [Component.normal fn]) = true
          · rw [if_pos hc]
            unfold emissions
            rw [chain_some]
            simp [hc]
          · rw [if_neg hc]
            rw [ih (parent d) (le_trans (pmeasure_parent_le d) hd)]
            unfold emissions
            rw [chain_some]
            simp [hc]

theorem nextFuel_measure (fs : Path → Bool) (fn : String) :
    ∀ (fuel : Nat) (o : Option Path) (p : Path) (c : Option Path),
      nextFuel fs fn fuel o = some (p, c) → pmeasure c < pmeasure o := by
  intro fuel
  induction fuel with
  | zero =>
      intro o p c h
      cases o with
      | none => rw [nextFuel_none] at h; exact absurd h (by simp)
      | some d => exact absurd h (by simp [nextFuel])
  | succ f ih =>
      intro o p c h
      cases o with
      | none => rw [nextFuel_none] at h; exact absurd h (by simp)
      | some d =>
          have h' : (if fs (d ++ [Component.normal fn]) then some (d ++ [Component.normal fn], parent d)
                     else nextFuel fs fn f (parent d)) = some (p, c) := h
          by_cases hc : fs (d ++ [Component.normal fn]) = true
          · rw [if_pos hc] at h'
            have hpc : (d ++ [Component.normal fn], parent d) = (p, c) := by
              simpa using h'
            have hcp : parent d = c := congrArg Prod.snd hpc
            rw [← hcp]
            calc pmeasure (parent d) ≤ d.length := pmeasure_parent_le d
              _ < d.length + 1 := Nat.lt_succ_self _
          · rw [if_neg hc] at h'
            calc pmeasure c < pmeasure (parent d) := ih (parent d) p c h'
              _ ≤ d.length := pmeasure_parent_le d
              _ < d.length + 1 := Nat.lt_succ_self _

theorem toListFuel_emissions (fs : Path → Bool) :
    ∀ (fuel : Nat) (it : FindIter), pmeasure it.current ≤ fuel →
      toListFuel fs fuel it = emissions fs it.file_name it.current := by
  intro fuel
  induction fuel with
  | zero =>
      intro it h
      rw [pmeasure_eq_zero (Nat.le_zero.mp h)]
      rfl
  | succ f ih =>
      intro it h
      have hkey := nextFuel_emissions fs it.file_name (pmeasure it.current) it.current le_rfl
      show (match it.next fs with
            | (none, _) => []
            | (some p, it') => p :: toListFuel fs f it') = emissions fs it.file_name it.current
      unfold FindIter.next
      cases hn : nextFuel fs it.file_name (pmeasure it.current) it.current with
      | none =>
          rw [hn] at hkey
          simpa using hkey.symm
      | some pc =>
          obtain ⟨p, c⟩ := pc
          rw [hn] at hkey
          have hm : pmeasure c < pmeasure it.current :=
            nextFuel_measure fs it.file_name _ _ p c hn
          have hle : pmeasure c ≤ f := by omega
          show p :: toListFuel fs f { it with current := c } = emissions fs it.file_name it.current
          rw [ih { it with current := c } hle]
          exact hkey

theorem FindIter.toList_eq (fs : Path → Bool) (it : FindIter) :
    it.toList fs = emissions fs it.file_name it.current :=
  toListFuel_emissions fs (pmeasure it.current) it le_rfl

/-! ### The ancestor chain: order, distinctness, termination -/

theorem parent_concat (l : Path) (s : String) :
    parent (l ++ [Component.normal s]) = some l := by
  unfold parent
  rw [List.getLast?_concat]
  simp [List.dropLast_concat]

theorem chainFuel_mem_length :
    ∀ (fuel : Nat) (d e : Path), e ∈ chainFuel fuel (parent d) → e.length < d.length := by
  intro fuel
  induction fuel with
  | zero =>
      intro d e he
      cases hp : parent d with
      | none => rw [hp, chainFuel_none] at he; simp at he
      | some d₁ => rw [hp] at he; simp [chainFuel] at he
  | succ f ih =>
      intro d e he
      cases hp : parent d with
      | none => rw [hp, chainFuel_none] at he; simp at he
      | some d₁ =>
          rw [hp] at he
          have hlt := parent_length_lt hp
          have he' : e ∈ d₁ :: chainFuel f (parent d₁) := he
          rcases List.mem_cons.mp he' with he₁ | he₁
          · rw [he₁]; exact hlt
          · exact lt_trans (ih d₁ e he₁) hlt

theorem chainFuel_pairwise (fuel : Nat) :
    ∀ (o : Option Path), (chainFuel fuel o).Pairwise (fun a b => b.length < a.length) := by
  induction fuel with
  | zero =>
      intro o
      cases o with
      | none => rw [chainFuel_none]; exact List.Pairwise.nil
      | some d => exact List.Pairwise.nil
  | succ f ih =>
      intro o
      cases o with
      | none => rw [chainFuel_none]; exact List.Pairwise.nil
      | some d =>
          show (d :: chainFuel f (parent d)).Pairwise _
          exact List.Pairwise.cons (fun e he => chainFuel_mem_length f d e he) (ih (parent d))

theorem chain_pairwise (o : Option Path) :
    (chain o).Pairwise (fun a b => b.length < a.length) :=
  chainFuel_pairwise _ _

theorem chain_chain' (o : Option Path) :
    List.Chain' (fun a b => b.length < a.length) (chain o) :=
  (chain_pairwise o).chain'

theorem chain_pairwise_ne (o : Option Path) :
    (chain o).Pairwise (fun a b => a ≠ b) :=
  (chain_pairwise o).imp (fun h heq => absurd (heq ▸ h) (lt_irrefl _))

theorem chainFuel_getLast :
    ∀ (fuel : Nat) (o : Option Path) (dl : Path), pmeasure o ≤ fuel →
      (chainFuel fuel o).getLast? = some dl → parent dl = none := by
  intro fuel
  induction fuel with
  | zero =>
      intro o dl h hg
      rw [pmeasure_eq_zero (Nat.le_zero.mp h), chainFuel_none] at hg
      exact absurd hg (by simp)
  | succ f ih =>
      intro o dl h hg
      cases o with
      | none => rw [chainFuel_none] at hg; exact absurd hg (by simp)
      | some d =>
          have hd : d.length ≤ f := by simpa [pmeasure] using h
          have hg' : (d :: chainFuel f (parent d)).getLast? = some dl := hg
          cases hp : parent d with
          | none =>
              rw [hp, chainFuel_none] at hg'
              have : d = dl := by simpa using hg'
              rw [← this]; exact hp
          | some d₁ =>
              have hm : d₁.length + 1 ≤ f := by
                have := parent_length_lt hp
                omega
              cases f with
              | zero => omega
              | succ f' =>
                  rw [hp] at hg'
                  have hg'' : (d :: d₁ :: chainFuel f' (parent d₁)).getLast? = some dl := hg'
                  rw [List.getLast?_cons_cons] at hg''
                  exact ih (some d₁) dl (by simpa [pmeasure] using hm) hg''

theorem chain_getLast {o : Option Path} {dl : Path}
    (hg : (chain o).getLast? = some dl) : parent dl = none :=
  chainFuel_getLast (pmeasure o) o dl le_rfl hg

/-! ### Lemmas about `emissions` -/

theorem emissions_map_dropLast_sublist (fs : Path → Bool) (fn : String) (o : Option Path) :
    ((emissions fs fn o).map List.dropLast).Sublist (chain o) := by
  unfold emissions
  have h1 : (((chain o).map (fun d => d ++ [Component.normal fn])).filter fs).Sublist
      ((chain o).map (fun d => d ++ [Component.normal fn])) := List.filter_sublist _
  have h2 := h1.map List.dropLast
  have h3 : ((chain o).map (fun d => d ++ [Component.normal fn])).map List.dropLast = chain o := by
    rw [List.map_map]
    have hfun : (List.dropLast ∘ fun d => d ++ [Component.normal fn]) = id := by
      funext d
      simp [Function.comp, List.dropLast_concat]
    rw [hfun, List.map_id]
  rw [h3] at h2
  exact h2

theorem emissions_mem {fs : Path → Bool} {fn : String} {o : Option Path} {p : Path}
    (hp : p ∈ emissions fs fn o) :
    ∃ d ∈ chain o, p = d ++ [Component.normal fn] ∧ fs p = true := by
  unfold emissions at hp
  obtain ⟨hmem, hfs⟩ := List.mem_filter.mp hp
  obtain ⟨d, hd, hcand⟩ := List.mem_map.mp hmem
  exact ⟨d, hd, hcand.symm, hfs⟩

theorem emissions_pairwise_ne (fs : Path → Bool) (fn : String) (o : Option Path) :
    (emissions fs fn o).Pairwise (fun a b => a ≠ b) := by
  have hp := chain_pairwise o
  have hmap : ((chain o).map (fun d => d ++ [Component.normal fn])).Pairwise
      (fun a b => b.length < a.length) := by
    refine hp.map _ ?_
    intro a b hab
    simpa using hab
  have hsub : (emissions fs fn o).Pairwise (fun a b => b.length < a.length) :=
    List.Pairwise.sublist (List.filter_sublist _) hmap
  exact hsub.imp (fun h heq => absurd (heq ▸ h) (lt_irrefl _))

theorem emissions_eq_nil {fs : Path → Bool} {fn : String} {o : Option Path}
    (h : ∀ d ∈ chain o, fs (d ++ [Component.normal fn]) = false) :
    emissions fs fn o = [] := by
  unfold emissions
  rw [List.filter_eq_nil_iff]
  intro a ha
  obtain ⟨d, hd, hcand⟩ := List.mem_map.mp ha
  rw [← hcand]
  simp [h d hd]

theorem emissions_head {fs : Path → Bool} {fn : String} {N : Path}
    (h : fs (N ++ [Component.normal fn]) = true) :
    (emissions fs fn (some N)).head? = some (N ++ [Component.normal fn]) := by
  unfold emissions
  rw [chain_some]
  simp [List.filter_cons, h]

/-! ### Lemmas about `find` -/

theorem find_def (fs : Path → Bool) (cwd : Option Path) (input : Path) (base : Option Path)
    (fn : Option String) :
    find fs cwd input base fn =
      { current := some (startDirOf fs cwd input base), file_name := fn.getD "Cargo.toml" } :=
  rfl

theorem find_toList (fs : Path → Bool) (cwd : Option Path) (input : Path) (base : Option Path)
    (fn : Option String) :
    (find fs cwd input base fn).toList fs =
      emissions fs (fn.getD "Cargo.toml") (some (startDirOf fs cwd input base)) := by
  rw [find_def, FindIter.toList_eq]

theorem startDirOf_not_file {fs : Path → Bool} {cwd : Option Path} {input : Path}
    {base : Option Path} (h : fs (normalize_path (startOf cwd input base)) = false) :
    startDirOf fs cwd input base = normalize_path (startOf cwd input base) := by
  simp [startDirOf, h]

theorem startDirOf_file {fs : Path → Bool} {cwd : Option Path} {input : Path}
    {base : Option Path} (h : fs (normalize_path (startOf cwd input base)) = true) :
    startDirOf fs cwd input base =
      (parent (normalize_path (startOf cwd input base))).getD
        (normalize_path (startOf cwd input base)) := by
  simp [startDirOf, h]

/-! ### The claims -/

/-- C1: the spec (and `normalize_path`'s own doc comment) says normalization
resolves both `.` and `..` components lexically, so a path ending in `sub/..`
should normalize to the path without that suffix. The code is
`path.components().collect()`, which removes only `.` components: on
`root/sub/..` it returns `root/sub/..` unchanged, not `root`. -/
theorem C1_normalize_path_keeps_dotdot :
    normalize_path [Component.normal "root", Component.normal "sub", Component.parentDir] =
      [Component.normal "root", Component.normal "sub", Component.parentDir] ∧
    normalize_path [Component.normal "root", Component.normal "sub", Component.parentDir] ≠
      [Component.normal "root"] := by
  decide

/-- C2: the spec says `find` starting at `root/sub/..` yields the same
sequence as `find` starting at `root`. With `/r/Cargo.toml` an existing
regular file and `/r/s` a subdirectory (`fsDemo`), `find(/r/s/..)` yields
the manifest twice — once as `/r/s/../Cargo.toml` and once as
`/r/Cargo.toml` — whereas `find(/r)` yields it once, because
`normalize_path` does not remove the `..` component. -/
theorem C2_find_dotdot_differs :
    FindIter.toList fsDemo
        (find fsDemo none
          [Component.rootDir, Component.normal "r", Component.normal "s", Component.parentDir]
          none none) =
      [[Component.rootDir, Component.normal "r", Component.normal "s", Component.parentDir,
        Component.normal "Cargo.toml"],
       [Component.rootDir, Component.normal "r", Component.normal "Cargo.toml"]] ∧
    FindIter.toList fsDemo
        (find fsDemo none [Component.rootDir, Component.normal "r"] none none) =
      [[Component.rootDir, Component.normal "r", Component.normal "Cargo.toml"]] ∧
    FindIter.toList fsDemo
        (find fsDemo none
          [Component.rootDir, Component.normal "r", Component.normal "s", Component.parentDir]
          none none) ≠
      FindIter.toList fsDemo
        (find fsDemo none [Component.rootDir, Component.normal "r"] none none) := by
  refine ⟨by decide, by decide, by decide⟩

/-- C3: each emitted match's parent is exactly one of the (lexical) ancestor
directories of the starting directory; the ancestor chain is visited in
strictly decreasing depth (component-count) order, nearest first, so each
ancestor is visited at most once and no match is emitted twice; the chain
ends exactly when `parent` returns `none` (the filesystem root's parent). -/
theorem C3_emitted_parents_are_ancestors (fs : Path → Bool) (cwd : Option Path) (input : Path)
    (base : Option Path) (fn : Option String) :
    (∀ p ∈ (find fs cwd input base fn).toList fs,
        parent p = some p.dropLast ∧ p.dropLast ∈ chain (some (startDirOf fs cwd input base))) ∧
    (((find fs cwd input base fn).toList fs).map List.dropLast).Sublist
        (chain (some (startDirOf fs cwd input base))) ∧
    List.Chain' (fun a b => b.length < a.length) (chain (some (startDirOf fs cwd input base))) ∧
    (chain (some (startDirOf fs cwd input base))).Pairwise (fun a b => a ≠ b) ∧
    ((find fs cwd input base fn).toList fs).Pairwise (fun a b => a ≠ b) ∧
    (∀ dl, (chain (some (startDirOf fs cwd input base))).getLast? = some dl →
        parent dl = none) := by
  refine ⟨?_, ?_, chain_chain' _, chain_pairwise_ne _, ?_, ?_⟩
  · intro p hp
    rw [find_toList] at hp
    obtain ⟨d, hd, hcand, _⟩ := emissions_mem hp
    subst hcand
    rw [List.dropLast_concat]
    exact ⟨parent_concat d _, hd⟩
  · rw [find_toList]
    exact emissions_map_dropLast_sublist _ _ _
  · rw [find_toList]
    exact emissions_pairwise_ne _ _ _
  · intro dl h
    exact chain_getLast h

/-- C4: when the (normalized) starting path is not itself a file and no
ancestor directory of the starting directory contains the target file,
`find` yields the empty sequence — absence is never an error, the embedded
functions are total. -/
theorem C4_absence_yields_nothing (fs : Path → Bool) (cwd : Option Path) (input : Path)
    (base : Option Path) (fn : Option String)
    (hdir : fs (normalize_path (startOf cwd input base)) = false)
    (habsent : ∀ d ∈ chain (some (normalize_path (startOf cwd input base))),
        fs (d ++ [Component.normal (fn.getD "Cargo.toml")]) = false) :
    (find fs cwd input base fn).toList fs = [] := by
  rw [find_toList, startDirOf_not_file hdir]
  exact emissions_eq_nil habsent

/-- Witness for C4 at a concrete input: the empty filesystem, start `/a`. -/
theorem C4_absence_yields_nothing_witness :
    ((fun _ => false) : Path → Bool)
        (normalize_path (startOf none [Component.rootDir, Component.normal "a"] none)) = false ∧
    (∀ d ∈ chain (some (normalize_path (startOf none [Component.rootDir, Component.normal "a"] none))),
        ((fun _ => false) : Path → Bool)
          (d ++ [Component.normal ((none : Option String).getD "Cargo.toml")]) = false) ∧
    (find (fun _ => false) none [Component.rootDir, Component.normal "a"] none none).toList
        (fun _ => false) = [] :=
  ⟨by decide, by decide,
    C4_absence_yields_nothing (fun _ => false) none [Component.rootDir, Component.normal "a"]
      none none (by decide) (by decide)⟩

/-- C5: when the starting directory itself (the normalized start path, not
itself a file) contains the target file, the first yielded path is that
candidate and its parent directory is exactly the starting directory. -/
theorem C5_nearest_match_first (fs : Path → Bool) (cwd : Option Path) (input : Path)
    (base : Option Path) (fn : Option String)
    (hdir : fs (normalize_path (startOf cwd input base)) = false)
    (hfile : fs (normalize_path (startOf cwd input base) ++
        [Component.normal (fn.getD "Cargo.toml")]) = true) :
    ((find fs cwd input base fn).toList fs).head? =
      some (normalize_path (startOf cwd input base) ++
        [Component.normal (fn.getD "Cargo.toml")]) ∧
    parent (normalize_path (startOf cwd input base) ++
        [Component.normal (fn.getD "Cargo.toml")]) =
      some (normalize_path (startOf cwd input base)) := by
  constructor
  · rw [find_toList, startDirOf_not_file hdir]
    exact emissions_head hfile
  · exact parent_concat _ _

/-- Witness for C5 at a concrete input: `/Cargo.toml` exists, start `/`. -/
theorem C5_nearest_match_first_witness :
    ((fun p => p == [Component.rootDir, Component.normal "Cargo.toml"]) : Path → Bool)
        (normalize_path (startOf none [Component.rootDir] none)) = false ∧
    ((fun p => p == [Component.rootDir, Component.normal "Cargo.toml"]) : Path → Bool)
        (normalize_path (startOf none [Component.rootDir] none) ++
          [Component.normal ((none : Option String).getD "Cargo.toml")]) = true ∧
    ((find (fun p => p == [Component.rootDir, Component.normal "Cargo.toml"]) none
          [Component.rootDir] none none).toList
        (fun p => p == [Component.rootDir, Component.normal "Cargo.toml"])).head? =
      some (normalize_path (startOf none [Component.rootDir] none) ++
        [Component.normal ((none : Option String).getD "Cargo.toml")]) :=
  ⟨by decide, by decide,
    (C5_nearest_match_first (fun p => p == [Component.rootDir, Component.normal "Cargo.toml"])
      none [Component.rootDir] none none (by decide) (by decide)).1⟩

/-- C6: when the normalized start path for input `F` is an existing regular
file whose parent is the normalized start path for input `P` (itself not a
file), `find` on `F` builds exactly the same iterator as `find` on `P`, so
both produce the same sequence. -/
theorem C6_file_input_uses_parent (fs : Path → Bool) (cwd : Option Path)
    (inputF inputP : Path) (base : Option Path) (fn : Option String)
    (hfile : fs (normalize_path (startOf cwd inputF base)) = true)
    (hparent : parent (normalize_path (startOf cwd inputF base)) =
        some (normalize_path (startOf cwd inputP base)))
    (hPdir : fs (normalize_path (startOf cwd inputP base)) = false) :
    (find fs cwd inputF base fn).toList fs = (find fs cwd inputP base fn).toList fs ∧
    find fs cwd inputF base fn = find fs cwd inputP base fn := by
  have h1 : startDirOf fs cwd inputF base = normalize_path (startOf cwd inputP base) := by
    rw [startDirOf_file hfile, hparent]
    rfl
  have h2 : startDirOf fs cwd inputP base = normalize_path (startOf cwd inputP base) :=
    startDirOf_not_file hPdir
  have heq : find fs cwd inputF base fn = find fs cwd inputP base fn := by
    rw [find_def, find_def, h1, h2]
  exact ⟨by rw [heq], heq⟩

/-- Witness for C6 at a concrete input: `/f` is a file, its parent is `/`. -/
theorem C6_file_input_uses_parent_witness :
    ((fun p => p == [Component.rootDir, Component.normal "f"]) : Path → Bool)
        (normalize_path (startOf none [Component.rootDir, Component.normal "f"] none)) = true ∧
    parent (normalize_path (startOf none [Component.rootDir, Component.normal "f"] none)) =
      some (normalize_path (startOf none [Component.rootDir] none)) ∧
    ((fun p => p == [Component.rootDir, Component.normal "f"]) : Path → Bool)
        (normalize_path (startOf none [Component.rootDir] none)) = false ∧
    find (fun p => p == [Component.rootDir, Component.normal "f"]) none
        [Component.rootDir, Component.normal "f"] none none =
      find (fun p => p == [Component.rootDir, Component.normal "f"]) none
        [Component.rootDir] none none :=
  ⟨by decide, by decide, by decide,
    (C6_file_input_uses_parent (fun p => p == [Component.rootDir, Component.normal "f"]) none
      [Component.rootDir, Component.normal "f"] [Component.rootDir] none none
      (by decide) (by decide) (by decide)).2⟩

/-- C7: `find_from_current_dir(input, file_name)` is definitionally the same
search as `find(input, base = none, file_name)`; with `base = none` the base
used for resolving a relative input is the current working directory (or
`.` when it cannot be determined). -/
theorem C7_find_from_current_dir_eq_find (fs : Path → Bool) (cwd : Option Path) (input : Path)
    (fn : Option String) :
    find_from_current_dir fs cwd input fn = find fs cwd input none fn ∧
    effectiveBase cwd none = cwd.getD [Component.curDir] :=
  ⟨rfl, rfl⟩

/-- C8: when `base` is absent and the current working directory cannot be
determined (`cwd = none`), `find` silently falls back to the relative path
`.` as base: the search it builds is identical to one with explicit base
`.`, whatever the current-directory state. (All embedded operations are
total functions, which is how the absence of panics is rendered.) -/
theorem C8_cwd_failure_falls_back_to_dot (fs : Path → Bool) (cwd : Option Path) (input : Path)
    (fn : Option String) :
    find fs none input none fn = find fs cwd input (some [Component.curDir]) fn := rfl

/-- C9: once the iterator's `current` is `none`, `next` yields nothing, the
state keeps `current = none` (so every later call also yields nothing), and
the collected remainder of the sequence is empty. -/
theorem C9_exhaustion_is_permanent (fs : Path → Bool) (it : FindIter)
    (h : it.current = none) :
    it.next fs = (none, it) ∧ it.toList fs = [] := by
  cases it with
  | mk cur fn0 =>
      simp only at h
      subst h
      exact ⟨rfl, rfl⟩

/-- Witness for C9 at a concrete exhausted iterator. -/
theorem C9_exhaustion_is_permanent_witness :
    (FindIter.mk none "Cargo.toml").current = none ∧
    ((FindIter.mk none "Cargo.toml").next (fun _ => false) =
        (none, FindIter.mk none "Cargo.toml") ∧
      (FindIter.mk none "Cargo.toml").toList (fun _ => false) = []) :=
  ⟨rfl, C9_exhaustion_is_permanent (fun _ => false) (FindIter.mk none "Cargo.toml") rfl⟩

/-- C10: when the normalized start path is an existing regular file with no
parent (`parent` returns `none`), `find` uses the file path itself as the
starting directory (`unwrap_or(start_normalized)`), so the call is total. -/
theorem C10_parentless_file_is_start_dir (fs : Path → Bool) (cwd : Option Path) (input : Path)
    (base : Option Path) (fn : Option String)
    (hfile : fs (normalize_path (startOf cwd input base)) = true)
    (hroot : parent (normalize_path (startOf cwd input base)) = none) :
    (find fs cwd input base fn).current = some (normalize_path (startOf cwd input base)) := by
  rw [find_def]
  show some (startDirOf fs cwd input base) = _
  rw [startDirOf_file hfile, hroot]
  rfl

/-- Witness for C10 at a concrete input: `fs` reports the bare root `/` as a
regular file; `/` has no parent. -/
theorem C10_parentless_file_is_start_dir_witness :
    ((fun p => p == [Component.rootDir]) : Path → Bool)
        (normalize_path (startOf none [Component.rootDir] none)) = true ∧
    parent (normalize_path (startOf none [Component.rootDir] none)) = none ∧
    (find (fun p => p == [Component.rootDir]) none [Component.rootDir] none none).current =
      some (normalize_path (startOf none [Component.rootDir] none)) :=
  ⟨by decide, by decide,
    C10_parentless_file_is_start_dir (fun p => p == [Component.rootDir]) none
      [Component.rootDir] none none (by decide) (by decide)⟩

end FindCargoToml
